import Mathlib

/-!
Verification of the sliding-puzzle kernel in
`src/components/SlidingPuzzle.tsx`.

Board model: a board is a flattened `List Nat` of `size * size` tile
values, `0` marking the empty cell.  Timestamps are integers
(milliseconds); optional timestamps are `Option Int`.  The random source
of `Math.random()` is modelled as a function `Nat → ℚ` whose values lie
in `[0, 1)`; step `i` of the shuffle walk consumes `rand i`.
-/

namespace SlidingPuzzle

/-- Source `createSolved(size)`: `[...Array(total-1).keys()].map(n => n+1).concat(0)`. -/
def createSolved (size : Nat) : List Nat :=
  ((List.range (size * size - 1)).map (fun n => n + 1)) ++ [0]

/-- Source `indexToRC(index, size)`: row `⌊index / size⌋`, column `index % size`. -/
def indexToRC (index size : Nat) : Nat × Nat :=
  (index / size, index % size)

/-- Source `rcToIndex(r, c, size) = r * size + c`. -/
def rcToIndex (r c size : Nat) : Nat :=
  r * size + c

/-- Source `neighborsOf(emptyIndex, size)`: pushes up, down, left, right
neighbours, each guarded by the corresponding bounds check. -/
def neighborsOf (emptyIndex size : Nat) : List Nat :=
  let r := (indexToRC emptyIndex size).1
  let c := (indexToRC emptyIndex size).2
  (if 0 < r then [rcToIndex (r - 1) c size] else []) ++
  (if r < size - 1 then [rcToIndex (r + 1) c size] else []) ++
  (if 0 < c then [rcToIndex r (c - 1) size] else []) ++
  (if c < size - 1 then [rcToIndex r (c + 1) size] else [])

/-- Source `isSolved(tiles)`: `tiles[i] === i+1` for `i < length-1` and the last
cell is `0` (`tiles[tiles.length-1] === 0`; on the empty list the JS
lookup yields `undefined`, which is not `0`). -/
def isSolved (tiles : List Nat) : Bool :=
  ((List.range (tiles.length - 1)).all fun i => tiles.getD i 0 == i + 1) &&
    (tiles.getLast? == some 0)

/-- The lookup `tiles.indexOf(0)` (claims only use it on boards that contain `0`). -/
def idxOfZero (tiles : List Nat) : Nat :=
  tiles.findIdx (fun v => v == 0)

/-- The destructuring swap
`[tiles[i], tiles[j]] = [tiles[j], tiles[i]]`: both right-hand values are
read from the original list before either write. -/
def swapTiles (l : List Nat) (i j : Nat) : List Nat :=
  (l.set i (l.getD j 0)).set j (l.getD i 0)

/-- One iteration of the shuffle walk: pick
`adj[Math.floor(rand * adj.length)]` and swap it with the empty cell.
State: `(tiles, empty)`. -/
def shuffleStep (size : Nat) (r : ℚ) (st : List Nat × Nat) : List Nat × Nat :=
  let adj := neighborsOf st.2 size
  let choice := adj.getD (Int.toNat ⌊r * (adj.length : ℚ)⌋) 0
  (swapTiles st.1 choice st.2, choice)

/-- The first `n` iterations of the walk of `shuffleSolvable`, starting
from the solved board with `empty = tiles.indexOf(0)`. -/
def shuffleWalk (size : Nat) (rand : Nat → ℚ) : Nat → List Nat × Nat
  | 0 => (createSolved size, idxOfZero (createSolved size))
  | n + 1 => shuffleStep size (rand n) (shuffleWalk size rand n)

/-- Source `shuffleSolvable(size, steps)`: random walk of `steps` legal moves
from the solved board, then one extra legal move (with `adj[0]`) if the
walk happened to end on the solved board. -/
def shuffleSolvable (size steps : Nat) (rand : Nat → ℚ) : List Nat :=
  let st := shuffleWalk size rand steps
  if isSolved st.1 then
    let adj := neighborsOf st.2 size
    let choice := adj.getD 0 0
    swapTiles st.1 choice st.2
  else
    st.1

/-- The random source of `Math.random()`: every drawn value lies in `[0, 1)`. -/
def ValidRand (rand : Nat → ℚ) : Prop :=
  ∀ i, 0 ≤ rand i ∧ rand i < 1

/-- A legal move: swap an empty cell (value `0`) with a cell whose index
is orthogonally adjacent to it. -/
def LegalStep (size : Nat) (b bSwapped : List Nat) : Prop :=
  ∃ e c, e < b.length ∧ b.getD e 0 = 0 ∧ c ∈ neighborsOf e size ∧
    bSwapped = swapTiles b c e

/-- Boards reachable from the solved board by a finite sequence of legal
moves. -/
def ReachableBoard (size : Nat) (b : List Nat) : Prop :=
  Relation.ReflTransGen (LegalStep size) (createSolved size) b

/-- The controller state (`GameState` in the source). -/
structure GameState where
  tiles : List Nat
  size : Nat
  moves : Nat
  startedAt : Option Int
  finishedAt : Option Int
  deriving Repr, DecidableEq

/-- The state built on mount:
`{ tiles: shuffleSolvable(defaultSize), size: defaultSize, moves: 0 }`
(both timestamps absent; the default walk length is 300). -/
def initialGame (size : Nat) (rand : Nat → ℚ) : GameState :=
  { tiles := shuffleSolvable size 300 rand
    size := size
    moves := 0
    startedAt := none
    finishedAt := none }

/-- Handler `onTileClick(index)` at time `now`: no-op when finished or when
`index` is not adjacent to the empty cell; otherwise swap, bump `moves`,
start the clock if needed, and finish iff the new board is solved. -/
def onTileClick (g : GameState) (index : Nat) (now : Int) : GameState :=
  if g.finishedAt.isSome then g
  else
    let empty := idxOfZero g.tiles
    let adj := neighborsOf empty g.size
    if index ∈ adj then
      let next := swapTiles g.tiles index empty
      { g with
          tiles := next
          moves := g.moves + 1
          startedAt := some (g.startedAt.getD now)
          finishedAt := if isSolved next then some now else none }
    else g

/-- Handler `onShuffle()`: fresh 300-step shuffle at the current size, counters
and timestamps reset. -/
def onShuffle (g : GameState) (rand : Nat → ℚ) : GameState :=
  { tiles := shuffleSolvable g.size 300 rand
    size := g.size
    moves := 0
    startedAt := none
    finishedAt := none }

/-- The size-change effect: a fresh game at the new size. -/
def onResize (newSize : Nat) (rand : Nat → ℚ) : GameState :=
  { tiles := shuffleSolvable newSize 300 rand
    size := newSize
    moves := 0
    startedAt := none
    finishedAt := none }

/-- Derived `seconds` value: `0` before the first move, else
`Math.floor((end - startedAt) / 1000)` with `end = finishedAt ?? now`. -/
def seconds (g : GameState) (now : Int) : Int :=
  match g.startedAt with
  | none => 0
  | some s => Int.fdiv (g.finishedAt.getD now - s) 1000

/-- The elapsed-time formula as the specification words it:
`floor((min(endTime, now) - startTime) / 1000)`, an unset `endTime`
being treated as `now`. -/
def elapsedSpecFormula (g : GameState) (now : Int) : Int :=
  match g.startedAt with
  | none => 0
  | some s => Int.fdiv (min (g.finishedAt.getD now) now - s) 1000

/-- States reachable by the controller: the mount state and anything
produced from a reachable state by a tile click, a shuffle, or a size
change (sizes offered by the UI are at least 2; random draws lie in
`[0,1)`). -/
inductive ReachableState : GameState → Prop
  | init (size : Nat) (rand : Nat → ℚ) (hs : 2 ≤ size) (hr : ValidRand rand) :
      ReachableState (initialGame size rand)
  | click (g : GameState) (index : Nat) (now : Int) (hg : ReachableState g) :
      ReachableState (onTileClick g index now)
  | shuffle (g : GameState) (rand : Nat → ℚ) (hr : ValidRand rand)
      (hg : ReachableState g) :
      ReachableState (onShuffle g rand)
  | resize (g : GameState) (newSize : Nat) (rand : Nat → ℚ) (hs : 2 ≤ newSize)
      (hr : ValidRand rand) (hg : ReachableState g) :
      ReachableState (onResize newSize rand)

/-- Option-checked variant of one shuffle iteration: every array read is
`Option`-valued and any out-of-bounds access aborts with `none`. -/
def shuffleStepChk (size : Nat) (r : ℚ) (st : List Nat × Nat) :
    Option (List Nat × Nat) :=
  let adj := neighborsOf st.2 size
  (adj[Int.toNat ⌊r * (adj.length : ℚ)⌋]?).bind fun choice =>
    (st.1[choice]?).bind fun vc =>
      (st.1[st.2]?).bind fun ve =>
        some ((st.1.set choice ve).set st.2 vc, choice)

/-- Option-checked variant of the shuffle walk. -/
def shuffleWalkChk (size : Nat) (rand : Nat → ℚ) : Nat → Option (List Nat × Nat)
  | 0 =>
    ((createSolved size).findIdx? (fun v => v == 0)).bind fun e =>
      some (createSolved size, e)
  | n + 1 => (shuffleWalkChk size rand n).bind (shuffleStepChk size (rand n))

/-- Option-checked variant of `shuffleSolvable`. -/
def shuffleSolvableChk (size steps : Nat) (rand : Nat → ℚ) : Option (List Nat) :=
  (shuffleWalkChk size rand steps).bind fun st =>
    if isSolved st.1 then
      ((neighborsOf st.2 size)[0]?).bind fun choice =>
        (st.1[choice]?).bind fun vc =>
          (st.1[st.2]?).bind fun ve =>
            some ((st.1.set choice ve).set st.2 vc)
    else
      some st.1

/-- Invariant carried along the shuffle walk: the board is a permutation
of `0..size²-1`, the tracked empty index is in bounds and holds `0`, and
the board is reachable from solved by legal moves. -/
def WalkInv (size : Nat) (st : List Nat × Nat) : Prop :=
  st.1.Perm (List.range (size * size)) ∧
  st.2 < size * size ∧
  st.1.getD st.2 0 = 0 ∧
  ReachableBoard size st.1

end SlidingPuzzle

namespace SlidingPuzzle

lemma rc_lt {row col size : Nat} (hrow : row < size) (hcol : col < size) :
    row * size + col < size * size := by
  calc row * size + col < row * size + size := by omega
    _ = (row + 1) * size := by ring
    _ ≤ size * size := Nat.mul_le_mul_right _ (by omega)

lemma rcInj {size row col row2 col2 : Nat} (hc : col < size) (hc2 : col2 < size)
    (h : row * size + col = row2 * size + col2) : row = row2 ∧ col = col2 := by
  have hs : 0 < size := by omega
  have h1 : (row * size + col) / size = row := by
    rw [Nat.mul_comm row size, Nat.mul_add_div hs, Nat.div_eq_of_lt hc]
    omega
  have h2 : (row2 * size + col2) / size = row2 := by
    rw [Nat.mul_comm row2 size, Nat.mul_add_div hs, Nat.div_eq_of_lt hc2]
    omega
  have h3 : (row * size + col) % size = col := by
    rw [Nat.mul_comm row size, Nat.mul_add_mod, Nat.mod_eq_of_lt hc]
  have h4 : (row2 * size + col2) % size = col2 := by
    rw [Nat.mul_comm row2 size, Nat.mul_add_mod, Nat.mod_eq_of_lt hc2]
  constructor
  · rw [← h1, ← h2, h]
  · rw [← h3, ← h4, h]

lemma mem_ite_singleton {P : Prop} [Decidable P] {x j : Nat} :
    (j ∈ if P then [x] else []) ↔ P ∧ j = x := by
  split <;> simp_all

lemma mem_neighborsOf {e size j : Nat} :
    j ∈ neighborsOf e size ↔
      (0 < e / size ∧ j = (e / size - 1) * size + e % size) ∨
      (e / size < size - 1 ∧ j = (e / size + 1) * size + e % size) ∨
      (0 < e % size ∧ j = (e / size) * size + (e % size - 1)) ∨
      (e % size < size - 1 ∧ j = (e / size) * size + (e % size + 1)) := by
  simp [neighborsOf, indexToRC, rcToIndex, mem_ite_singleton]

lemma size_pos_of_lt_sq {e size : Nat} (he : e < size * size) : 0 < size := by
  rcases Nat.eq_zero_or_pos size with h | h
  · subst h; simp at he
  · exact h

lemma row_lt {e size : Nat} (he : e < size * size) : e / size < size :=
  (Nat.div_lt_iff_lt_mul (size_pos_of_lt_sq he)).mpr he

lemma col_lt {e size : Nat} (he : e < size * size) : e % size < size :=
  Nat.mod_lt _ (size_pos_of_lt_sq he)

lemma neighborsOf_lt {e size : Nat} (he : e < size * size) :
    ∀ j ∈ neighborsOf e size, j < size * size := by
  intro j hj
  have hr : e / size < size := row_lt he
  have hc : e % size < size := col_lt he
  rcases mem_neighborsOf.mp hj with ⟨h1, rfl⟩ | ⟨h1, rfl⟩ | ⟨h1, rfl⟩ | ⟨h1, rfl⟩
  · exact rc_lt (by omega) hc
  · exact rc_lt (by omega) hc
  · exact rc_lt hr (by omega)
  · exact rc_lt hr (by omega)

lemma exists_rc {e size : Nat} (he : e < size * size) :
    ∃ r c, e / size = r ∧ e % size = c ∧ e = r * size + c ∧ r < size ∧ c < size :=
  ⟨e / size, e % size, rfl, rfl,
   by rw [Nat.mul_comm]; exact (Nat.div_add_mod e size).symm, row_lt he, col_lt he⟩

lemma neighborsOf_ne {e size : Nat} (he : e < size * size) :
    ∀ j ∈ neighborsOf e size, j ≠ e := by
  intro j hj hje
  obtain ⟨r, c, hr, hc, he2, hrlt, hclt⟩ := exists_rc he
  rw [mem_neighborsOf, hr, hc] at hj
  subst hje
  rcases hj with ⟨h1, h2⟩ | ⟨h1, h2⟩ | ⟨h1, h2⟩ | ⟨h1, h2⟩ <;>
  · rw [he2] at h2
    have h3 := rcInj hclt (by omega) h2
    omega

lemma neighborsOf_ne_nil {e size : Nat} (hs : 2 ≤ size) (he : e < size * size) :
    neighborsOf e size ≠ [] := by
  intro hnil
  have hr : e / size < size := row_lt he
  by_cases h0 : 0 < e / size
  · have hmem : (e / size - 1) * size + e % size ∈ neighborsOf e size :=
      mem_neighborsOf.mpr (Or.inl ⟨h0, rfl⟩)
    rw [hnil] at hmem
    simp at hmem
  · have h1 : e / size < size - 1 := by omega
    have hmem : (e / size + 1) * size + e % size ∈ neighborsOf e size :=
      mem_neighborsOf.mpr (Or.inr (Or.inl ⟨h1, rfl⟩))
    rw [hnil] at hmem
    simp at hmem

lemma floor_mul_lt {r : ℚ} {n : Nat} (h0 : 0 ≤ r) (h1 : r < 1) (hn : 0 < n) :
    Int.toNat ⌊r * (n : ℚ)⌋ < n := by
  have hn2 : (0 : ℚ) < (n : ℚ) := by exact_mod_cast hn
  have hlt : r * (n : ℚ) < (n : ℚ) := by nlinarith
  have h2 : ⌊r * (n : ℚ)⌋ < (n : ℤ) := by
    rw [Int.floor_lt]
    exact_mod_cast hlt
  have h3 : (0 : ℤ) ≤ ⌊r * (n : ℚ)⌋ := Int.floor_nonneg.mpr (by positivity)
  omega

end SlidingPuzzle

namespace SlidingPuzzle

lemma swapTiles_length (l : List Nat) (i j : Nat) :
    (swapTiles l i j).length = l.length := by
  simp [swapTiles]

lemma getD_mem {l : List Nat} {i : Nat} (h : i < l.length) : l.getD i 0 ∈ l := by
  rw [List.getD_eq_getElem?_getD, List.getElem?_eq_getElem h]
  exact List.getElem_mem h

lemma count_swapTiles {l : List Nat} {i j : Nat} (hi : i < l.length)
    (hj : j < l.length) (hij : i ≠ j) (v : Nat) :
    (swapTiles l i j).count v = l.count v := by
  unfold swapTiles
  have hj2 : j < (l.set i (l.getD j 0)).length := by simpa using hj
  rw [List.count_set _ _ _ _ hj2, List.count_set _ _ _ _ hi]
  have e1 : (l.set i (l.getD j 0))[j] = l[j] := List.getElem_set_ne hij hj2
  have e2 : l.getD j 0 = l[j] := by
    rw [List.getD_eq_getElem?_getD, List.getElem?_eq_getElem hj]
    rfl
  have e3 : l.getD i 0 = l[i] := by
    rw [List.getD_eq_getElem?_getD, List.getElem?_eq_getElem hi]
    rfl
  rw [e1, e2, e3]
  have c1 : (if l[i] == v then 1 else 0) ≤ l.count v := by
    split
    · next hb =>
      have : v ∈ l := by
        have := List.getElem_mem hi
        rwa [(by simpa using hb : l[i] = v)] at this
      exact List.count_pos_iff.mpr this
    · omega
  have c2 : (if l[j] == v then 1 else 0) ≤ l.count v := by
    split
    · next hb =>
      have : v ∈ l := by
        have := List.getElem_mem hj
        rwa [(by simpa using hb : l[j] = v)] at this
      exact List.count_pos_iff.mpr this
    · omega
  omega

lemma swapTiles_perm {l : List Nat} {i j : Nat} (hi : i < l.length)
    (hj : j < l.length) (hij : i ≠ j) : (swapTiles l i j).Perm l :=
  List.perm_iff_count.mpr fun v => count_swapTiles hi hj hij v

lemma swapTiles_getD_fst {l : List Nat} {i j : Nat} (hi : i < l.length)
    (hij : i ≠ j) : (swapTiles l i j).getD i 0 = l.getD j 0 := by
  unfold swapTiles
  rw [List.getD_eq_getElem?_getD, List.getElem?_set_ne hij.symm,
    List.getElem?_set_self (by simpa using hi)]
  rfl

lemma swapTiles_getD_snd {l : List Nat} {i j : Nat} (hj : j < l.length) :
    (swapTiles l i j).getD j 0 = l.getD i 0 := by
  unfold swapTiles
  rw [List.getD_eq_getElem?_getD, List.getElem?_set_self (by simpa using hj)]
  rfl

lemma swapTiles_getD_other {l : List Nat} {i j k : Nat} (hki : k ≠ i)
    (hkj : k ≠ j) : (swapTiles l i j).getD k 0 = l.getD k 0 := by
  unfold swapTiles
  rw [List.getD_eq_getElem?_getD, List.getElem?_set_ne hkj.symm,
    List.getElem?_set_ne hki.symm, ← List.getD_eq_getElem?_getD]

lemma isSolved_iff {tiles : List Nat} :
    isSolved tiles = true ↔
      (∀ i < tiles.length - 1, tiles.getD i 0 = i + 1) ∧
        tiles.getLast? = some 0 := by
  simp [isSolved, List.all_eq_true, List.mem_range]

lemma createSolved_length {size : Nat} (hs : 1 ≤ size) :
    (createSolved size).length = size * size := by
  have h1 : 1 ≤ size * size := Nat.one_le_iff_ne_zero.mpr (by positivity)
  simp [createSolved]
  omega

lemma createSolved_perm {size : Nat} (hs : 1 ≤ size) :
    (createSolved size).Perm (List.range (size * size)) := by
  have h1 : 1 ≤ size * size := Nat.one_le_iff_ne_zero.mpr (by positivity)
  have h2 : size * size = (size * size - 1) + 1 := by omega
  have h3 : (0 : Nat) :: (List.range (size * size - 1)).map (fun n => n + 1) =
      List.range (size * size) := by
    rw [h2, List.range_succ_eq_map]
    simp [Nat.succ_eq_add_one]
  have h4 := List.perm_append_singleton 0
    ((List.range (size * size - 1)).map (fun n => n + 1))
  rw [h3] at h4
  exact h4

lemma zero_mem_createSolved (size : Nat) : 0 ∈ createSolved size := by
  simp [createSolved]

lemma getD_createSolved {size i : Nat} (hi : i < size * size - 1) :
    (createSolved size).getD i 0 = i + 1 := by
  unfold createSolved
  rw [List.getD_eq_getElem?_getD, List.getElem?_append_left (by simpa using hi)]
  rw [List.getElem?_map]
  have : (List.range (size * size - 1))[i]? = some i := by
    rw [List.getElem?_eq_getElem (by simpa using hi)]
    simp
  rw [this]
  rfl

lemma isSolved_createSolved {size : Nat} (hs : 1 ≤ size) :
    isSolved (createSolved size) = true := by
  rw [isSolved_iff]
  refine ⟨fun i hi => ?_, List.getLast?_concat _⟩
  rw [createSolved_length hs] at hi
  exact getD_createSolved hi

lemma idxOfZero_lt {tiles : List Nat} (h : 0 ∈ tiles) :
    idxOfZero tiles < tiles.length :=
  List.findIdx_lt_length_of_exists ⟨0, h, by simp⟩

lemma idxOfZero_getD {tiles : List Nat} (h : 0 ∈ tiles) :
    tiles.getD (idxOfZero tiles) 0 = 0 := by
  have hlt := idxOfZero_lt h
  have h2 := List.findIdx_getElem (p := fun v => v == 0) (w := hlt)
  rw [List.getD_eq_getElem?_getD, List.getElem?_eq_getElem hlt]
  simpa using h2

end SlidingPuzzle

namespace SlidingPuzzle


lemma WalkInv.len {size : Nat} {st : List Nat × Nat} (h : WalkInv size st) :
    st.1.length = size * size :=
  h.1.length_eq.trans (List.length_range _)

lemma shuffleStep_inv {size : Nat} {st : List Nat × Nat} (hs : 2 ≤ size)
    {r : ℚ} (hr0 : 0 ≤ r) (hr1 : r < 1) (h : WalkInv size st) :
    WalkInv size (shuffleStep size r st) := by
  obtain ⟨hperm, hemp, hzero, hreach⟩ := h
  have hlen : st.1.length = size * size :=
    hperm.length_eq.trans (List.length_range _)
  have hne : neighborsOf st.2 size ≠ [] := neighborsOf_ne_nil hs hemp
  have hpos : 0 < (neighborsOf st.2 size).length := List.length_pos.mpr hne
  have hk : Int.toNat ⌊r * ((neighborsOf st.2 size).length : ℚ)⌋ <
      (neighborsOf st.2 size).length := floor_mul_lt hr0 hr1 hpos
  have hmem :
      (neighborsOf st.2 size).getD
        (Int.toNat ⌊r * ((neighborsOf st.2 size).length : ℚ)⌋) 0 ∈
        neighborsOf st.2 size := getD_mem hk
  set choice :=
    (neighborsOf st.2 size).getD
      (Int.toNat ⌊r * ((neighborsOf st.2 size).length : ℚ)⌋) 0 with hch
  have hclt : choice < size * size := neighborsOf_lt hemp _ hmem
  have hcne : choice ≠ st.2 := neighborsOf_ne hemp _ hmem
  have hstepeq : shuffleStep size r st = (swapTiles st.1 choice st.2, choice) :=
    rfl
  have hstep : LegalStep size st.1 (swapTiles st.1 choice st.2) :=
    ⟨st.2, choice, by omega, hzero, hmem, rfl⟩
  rw [hstepeq]
  refine ⟨?_, hclt, ?_, hreach.tail hstep⟩
  · exact (swapTiles_perm (by omega) (by omega) hcne).trans hperm
  · rw [swapTiles_getD_fst (by omega) hcne]
    exact hzero

lemma shuffleWalk_inv {size : Nat} (hs : 2 ≤ size) {rand : Nat → ℚ}
    (hr : ValidRand rand) : ∀ n, WalkInv size (shuffleWalk size rand n)
  | 0 => by
    have hmem := zero_mem_createSolved size
    have hlt := idxOfZero_lt hmem
    rw [createSolved_length (by omega)] at hlt
    exact ⟨createSolved_perm (by omega), hlt, idxOfZero_getD hmem,
      Relation.ReflTransGen.refl⟩
  | n + 1 => shuffleStep_inv hs (hr n).1 (hr n).2 (shuffleWalk_inv hs hr n)

lemma shuffleSolvable_inv (size steps : Nat) (hs : 2 ≤ size) (rand : Nat → ℚ)
    (hr : ValidRand rand) :
    (shuffleSolvable size steps rand).Perm (List.range (size * size)) ∧
    ReachableBoard size (shuffleSolvable size steps rand) ∧
    isSolved (shuffleSolvable size steps rand) = false := by
  obtain ⟨hperm, hemp, hzero, hreach⟩ := shuffleWalk_inv hs hr steps
  have hlen : (shuffleWalk size rand steps).1.length = size * size :=
    hperm.length_eq.trans (List.length_range _)
  have hsq : 4 ≤ size * size := by nlinarith
  by_cases hsol : isSolved (shuffleWalk size rand steps).1
  · have hne : neighborsOf (shuffleWalk size rand steps).2 size ≠ [] :=
      neighborsOf_ne_nil hs hemp
    have hpos : 0 < (neighborsOf (shuffleWalk size rand steps).2 size).length :=
      List.length_pos.mpr hne
    have hmem : (neighborsOf (shuffleWalk size rand steps).2 size).getD 0 0 ∈
        neighborsOf (shuffleWalk size rand steps).2 size := getD_mem hpos
    set choice := (neighborsOf (shuffleWalk size rand steps).2 size).getD 0 0
      with hch
    have hclt : choice < size * size := neighborsOf_lt hemp _ hmem
    have hcne : choice ≠ (shuffleWalk size rand steps).2 :=
      neighborsOf_ne hemp _ hmem
    have heq : shuffleSolvable size steps rand =
        swapTiles (shuffleWalk size rand steps).1 choice
          (shuffleWalk size rand steps).2 := by
      simp only [shuffleSolvable, hsol, if_true]
    obtain ⟨hall, hlast⟩ := isSolved_iff.mp hsol
    have hemp_last : (shuffleWalk size rand steps).2 = size * size - 1 := by
      by_contra hne2
      have h5 := hall (shuffleWalk size rand steps).2 (by omega)
      omega
    have hch_lt : choice < size * size - 1 := by omega
    have hval : (shuffleWalk size rand steps).1.getD choice 0 = choice + 1 :=
      hall choice (by omega)
    have hstep : LegalStep size (shuffleWalk size rand steps).1
        (swapTiles (shuffleWalk size rand steps).1 choice
          (shuffleWalk size rand steps).2) :=
      ⟨(shuffleWalk size rand steps).2, choice, by omega, hzero, hmem, rfl⟩
    rw [heq]
    refine ⟨(swapTiles_perm (by omega) (by omega) hcne).trans hperm,
      hreach.tail hstep, ?_⟩
    have hlen2 : (swapTiles (shuffleWalk size rand steps).1 choice
        (shuffleWalk size rand steps).2).length = size * size := by
      rw [swapTiles_length, hlen]
    have hres : (swapTiles (shuffleWalk size rand steps).1 choice
        (shuffleWalk size rand steps).2).getD (size * size - 1) 0 =
        choice + 1 := by
      rw [← hemp_last, swapTiles_getD_snd (by omega)]
      exact hval
    rw [Bool.eq_false_iff]
    intro hT
    obtain ⟨_, hlast2⟩ := isSolved_iff.mp hT
    rw [List.getLast?_eq_getElem?, hlen2] at hlast2
    have h6 : (swapTiles (shuffleWalk size rand steps).1 choice
        (shuffleWalk size rand steps).2)[size * size - 1]? =
        some (choice + 1) := by
      rw [List.getElem?_eq_getElem (by omega)]
      rw [List.getD_eq_getElem?_getD, List.getElem?_eq_getElem (by omega)]
        at hres
      simp only [Option.getD_some] at hres
      rw [hres]
    rw [h6] at hlast2
    simp at hlast2
  · have heq : shuffleSolvable size steps rand =
        (shuffleWalk size rand steps).1 := by
      simp [shuffleSolvable, hsol]
    rw [heq]
    exact ⟨hperm, hreach, by simpa using hsol⟩

end SlidingPuzzle

namespace SlidingPuzzle

lemma getD_eq_getElem? {l : List Nat} {i : Nat} (h : i < l.length) :
    l[i]? = some (l.getD i 0) := by
  rw [List.getD_eq_getElem?_getD, List.getElem?_eq_getElem h]
  rfl

lemma findIdx?_zero_createSolved (size : Nat) :
    (createSolved size).findIdx? (fun v => v == 0) =
      some (idxOfZero (createSolved size)) := by
  rw [List.findIdx?_eq_some_iff_findIdx_eq]
  exact ⟨idxOfZero_lt (zero_mem_createSolved size), rfl⟩

lemma shuffleStepChk_eq {size : Nat} {st : List Nat × Nat} (hs : 2 ≤ size)
    {r : ℚ} (hr0 : 0 ≤ r) (hr1 : r < 1) (h : WalkInv size st) :
    shuffleStepChk size r st = some (shuffleStep size r st) := by
  obtain ⟨hperm, hemp, hzero, _⟩ := h
  have hlen : st.1.length = size * size :=
    hperm.length_eq.trans (List.length_range _)
  have hne : neighborsOf st.2 size ≠ [] := neighborsOf_ne_nil hs hemp
  have hpos : 0 < (neighborsOf st.2 size).length := List.length_pos.mpr hne
  have hk : Int.toNat ⌊r * ((neighborsOf st.2 size).length : ℚ)⌋ <
      (neighborsOf st.2 size).length := floor_mul_lt hr0 hr1 hpos
  have hmem :
      (neighborsOf st.2 size).getD
        (Int.toNat ⌊r * ((neighborsOf st.2 size).length : ℚ)⌋) 0 ∈
        neighborsOf st.2 size := getD_mem hk
  set choice :=
    (neighborsOf st.2 size).getD
      (Int.toNat ⌊r * ((neighborsOf st.2 size).length : ℚ)⌋) 0 with hch
  have hclt : choice < size * size := neighborsOf_lt hemp _ hmem
  simp only [shuffleStepChk, shuffleStep]
  rw [getD_eq_getElem? hk, Option.some_bind, getD_eq_getElem? (l := st.1) (by omega),
    Option.some_bind, getD_eq_getElem? (l := st.1) (by omega), Option.some_bind]
  rfl

lemma shuffleWalkChk_eq {size : Nat} (hs : 2 ≤ size) {rand : Nat → ℚ}
    (hr : ValidRand rand) :
    ∀ n, shuffleWalkChk size rand n = some (shuffleWalk size rand n)
  | 0 => by
    simp only [shuffleWalkChk, shuffleWalk]
    rw [findIdx?_zero_createSolved, Option.some_bind]
  | n + 1 => by
    simp only [shuffleWalkChk, shuffleWalk]
    rw [shuffleWalkChk_eq hs hr n, Option.some_bind]
    exact shuffleStepChk_eq hs (hr n).1 (hr n).2 (shuffleWalk_inv hs hr n)

lemma shuffleSolvableChk_eq {size steps : Nat} (hs : 2 ≤ size) {rand : Nat → ℚ}
    (hr : ValidRand rand) :
    shuffleSolvableChk size steps rand = some (shuffleSolvable size steps rand) := by
  obtain ⟨hperm, hemp, hzero, _⟩ := shuffleWalk_inv hs hr steps
  have hlen : (shuffleWalk size rand steps).1.length = size * size :=
    hperm.length_eq.trans (List.length_range _)
  have hne : neighborsOf (shuffleWalk size rand steps).2 size ≠ [] :=
    neighborsOf_ne_nil hs hemp
  have hpos : 0 < (neighborsOf (shuffleWalk size rand steps).2 size).length :=
    List.length_pos.mpr hne
  have hmem : (neighborsOf (shuffleWalk size rand steps).2 size).getD 0 0 ∈
      neighborsOf (shuffleWalk size rand steps).2 size := getD_mem hpos
  have hclt : (neighborsOf (shuffleWalk size rand steps).2 size).getD 0 0 <
      size * size := neighborsOf_lt hemp _ hmem
  simp only [shuffleSolvableChk, shuffleSolvable]
  rw [shuffleWalkChk_eq hs hr steps, Option.some_bind]
  by_cases hsol : isSolved (shuffleWalk size rand steps).1
  · rw [if_pos hsol, if_pos hsol]
    rw [getD_eq_getElem? hpos, Option.some_bind,
      getD_eq_getElem? (l := (shuffleWalk size rand steps).1) (by omega),
      Option.some_bind,
      getD_eq_getElem? (l := (shuffleWalk size rand steps).1) (by omega),
      Option.some_bind]
    rfl
  · rw [if_neg hsol, if_neg hsol]

end SlidingPuzzle

namespace SlidingPuzzle

lemma nodup_ite_singleton {P : Prop} [Decidable P] {x : Nat} :
    (if P then [x] else []).Nodup := by
  split <;> simp

lemma disjoint_ite_singleton {P Q : Prop} [Decidable P] [Decidable Q]
    {x y : Nat} (hxy : P → Q → x ≠ y) :
    (if P then [x] else []).Disjoint (if Q then [y] else []) := by
  intro a h1 h2
  rw [mem_ite_singleton] at h1 h2
  exact absurd (h1.2.symm.trans h2.2) (hxy h1.1 h2.1)

lemma neighborsOf_nodup {e size : Nat} (he : e < size * size) :
    (neighborsOf e size).Nodup := by
  obtain ⟨r, c, hr, hc, he2, hrlt, hclt⟩ := exists_rc he
  unfold neighborsOf
  simp only [indexToRC, rcToIndex, hr, hc]
  have leaf : ∀ {P Q : Prop} [Decidable P] [Decidable Q]
      {r1 c1 r2 c2 : Nat},
      (P → Q → c1 < size ∧ c2 < size ∧ ¬(r1 = r2 ∧ c1 = c2)) →
      (if P then [r1 * size + c1] else []).Disjoint
        (if Q then [r2 * size + c2] else []) := by
    intro P Q _ _ r1 c1 r2 c2 hne
    refine disjoint_ite_singleton ?_
    intro h1 h2 heq
    obtain ⟨hc1, hc2, hne2⟩ := hne h1 h2
    exact hne2 (rcInj hc1 hc2 heq)
  refine List.Nodup.append
    (List.Nodup.append
      (List.Nodup.append nodup_ite_singleton nodup_ite_singleton
        (leaf ?_))
      nodup_ite_singleton ?_)
    nodup_ite_singleton ?_
  · intro h1 h2
    omega
  · rw [List.disjoint_append_left]
    exact ⟨leaf (by intro h1 h2; omega), leaf (by intro h1 h2; omega)⟩
  · rw [List.disjoint_append_left, List.disjoint_append_left]
    exact ⟨⟨leaf (by intro h1 h2; omega), leaf (by intro h1 h2; omega)⟩,
            leaf (by intro h1 h2; omega)⟩

lemma mem_neighborsOf_iff {e size : Nat} (he : e < size * size) (j : Nat) :
    j ∈ neighborsOf e size ↔
      ∃ jr jc, jr < size ∧ jc < size ∧ j = rcToIndex jr jc size ∧
        ((jr + 1 = e / size ∧ jc = e % size) ∨
         (jr = e / size + 1 ∧ jc = e % size) ∨
         (jr = e / size ∧ jc + 1 = e % size) ∨
         (jr = e / size ∧ jc = e % size + 1)) := by
  obtain ⟨r, c, hr, hc, he2, hrlt, hclt⟩ := exists_rc he
  rw [mem_neighborsOf, hr, hc]
  unfold rcToIndex
  constructor
  · rintro (⟨h1, rfl⟩ | ⟨h1, rfl⟩ | ⟨h1, rfl⟩ | ⟨h1, rfl⟩)
    · exact ⟨r - 1, c, by omega, hclt, rfl, Or.inl ⟨by omega, rfl⟩⟩
    · exact ⟨r + 1, c, by omega, hclt, rfl, Or.inr (Or.inl ⟨rfl, rfl⟩)⟩
    · exact ⟨r, c - 1, hrlt, by omega, rfl,
        Or.inr (Or.inr (Or.inl ⟨rfl, by omega⟩))⟩
    · exact ⟨r, c + 1, hrlt, by omega, rfl,
        Or.inr (Or.inr (Or.inr ⟨rfl, rfl⟩))⟩
  · rintro ⟨jr, jc, hjr, hjc, rfl, (⟨h1, h2⟩ | ⟨h1, h2⟩ | ⟨h1, h2⟩ | ⟨h1, h2⟩)⟩
    · refine Or.inl ⟨by omega, ?_⟩
      have e1 : jr = r - 1 := by omega
      rw [e1, h2]
    · refine Or.inr (Or.inl ⟨by omega, ?_⟩)
      rw [h1, h2]
    · refine Or.inr (Or.inr (Or.inl ⟨by omega, ?_⟩))
      have e1 : jc = c - 1 := by omega
      rw [h1, e1]
    · refine Or.inr (Or.inr (Or.inr ⟨by omega, ?_⟩))
      rw [h1, h2]

lemma neighborsOf_length {e size : Nat} (hs : 2 ≤ size) (he : e < size * size) :
    (neighborsOf e size).length =
      (if (e / size = 0 ∨ e / size = size - 1) ∧
          (e % size = 0 ∨ e % size = size - 1) then 2
       else if (e / size = 0 ∨ e / size = size - 1) ∨
          (e % size = 0 ∨ e % size = size - 1) then 3
       else 4) := by
  obtain ⟨r, c, hr, hc, he2, hrlt, hclt⟩ := exists_rc he
  unfold neighborsOf
  simp only [indexToRC, rcToIndex, hr, hc, List.length_append]
  have hl : ∀ (P : Prop) [Decidable P] (x : Nat),
      (if P then [x] else []).length = if P then 1 else 0 := by
    intro P _ x
    split <;> simp
  rw [hl, hl, hl, hl]
  split_ifs <;> omega

end SlidingPuzzle

namespace SlidingPuzzle

/-- C7: for every size ≥ 2, `createSolved size` is exactly the list
`[1, 2, ..., size²-1, 0]`; that list is a permutation of `{0..size²-1}`,
`isSolved` holds of it, and the function is deterministic (it is given by
this fixed equation in `size`). -/
theorem createSolved_spec (size : Nat) (hs : 2 ≤ size) :
    createSolved size =
      ((List.range (size * size - 1)).map (fun n => n + 1)) ++ [0] ∧
    (createSolved size).Perm (List.range (size * size)) ∧
    isSolved (createSolved size) = true :=
  ⟨rfl, createSolved_perm (by omega), isSolved_createSolved (by omega)⟩

/-- Witness for C7 at `size = 3`. -/
theorem createSolved_spec_check :
    2 ≤ 3 ∧
    (createSolved 3 =
        ((List.range (3 * 3 - 1)).map (fun n => n + 1)) ++ [0] ∧
      (createSolved 3).Perm (List.range (3 * 3)) ∧
      isSolved (createSolved 3) = true) :=
  ⟨by decide, createSolved_spec 3 (by decide)⟩

/-- C9: the coordinate maps are mutually inverse on the valid range:
`indexToRC (rcToIndex r c size) size = (r, c)` for `r, c < size`, and
`rcToIndex` of `indexToRC i size` returns `i` for `i < size²`. -/
theorem coord_roundTrip (size r c i : Nat) (hs : 1 ≤ size) (hr : r < size)
    (hc : c < size) (hi : i < size * size) :
    indexToRC (rcToIndex r c size) size = (r, c) ∧
    rcToIndex (indexToRC i size).1 (indexToRC i size).2 size = i := by
  constructor
  · unfold indexToRC rcToIndex
    have h1 : (r * size + c) / size = r := by
      rw [Nat.mul_comm r size, Nat.mul_add_div (by omega), Nat.div_eq_of_lt hc]
      omega
    have h2 : (r * size + c) % size = c := by
      rw [Nat.mul_comm r size, Nat.mul_add_mod, Nat.mod_eq_of_lt hc]
    rw [h1, h2]
  · unfold indexToRC rcToIndex
    simp only
    rw [Nat.mul_comm]
    exact Nat.div_add_mod i size

/-- Witness for C9 at `size = 3`, `(r, c) = (1, 2)`, `i = 5`. -/
theorem coord_roundTrip_check :
    (1 ≤ 3 ∧ 1 < 3 ∧ 2 < 3 ∧ 5 < 3 * 3) ∧
    (indexToRC (rcToIndex 1 2 3) 3 = (1, 2) ∧
      rcToIndex (indexToRC 5 3).1 (indexToRC 5 3).2 3 = 5) :=
  ⟨by decide,
   coord_roundTrip 3 1 2 5 (by decide) (by decide) (by decide) (by decide)⟩

/-- C8: for `size ≥ 2` and an in-range cell index, `neighborsOf` returns
exactly the in-bounds orthogonal neighbours of the cell's row/column,
without duplicates, all in `[0, size²)`, and its length is 2 at a corner,
3 on a non-corner edge, 4 in the interior. -/
theorem neighborsOf_spec (size e : Nat) (hs : 2 ≤ size) (he : e < size * size) :
    (∀ j ∈ neighborsOf e size, j < size * size) ∧
    (neighborsOf e size).Nodup ∧
    (∀ j, j ∈ neighborsOf e size ↔
      ∃ jr jc, jr < size ∧ jc < size ∧ j = rcToIndex jr jc size ∧
        ((jr + 1 = (indexToRC e size).1 ∧ jc = (indexToRC e size).2) ∨
         (jr = (indexToRC e size).1 + 1 ∧ jc = (indexToRC e size).2) ∨
         (jr = (indexToRC e size).1 ∧ jc + 1 = (indexToRC e size).2) ∨
         (jr = (indexToRC e size).1 ∧ jc = (indexToRC e size).2 + 1))) ∧
    (neighborsOf e size).length =
      (if ((indexToRC e size).1 = 0 ∨ (indexToRC e size).1 = size - 1) ∧
          ((indexToRC e size).2 = 0 ∨ (indexToRC e size).2 = size - 1) then 2
       else if ((indexToRC e size).1 = 0 ∨ (indexToRC e size).1 = size - 1) ∨
          ((indexToRC e size).2 = 0 ∨ (indexToRC e size).2 = size - 1) then 3
       else 4) := by
  refine ⟨neighborsOf_lt he, neighborsOf_nodup he, ?_, ?_⟩
  · intro j
    simpa only [indexToRC] using mem_neighborsOf_iff he j
  · simpa only [indexToRC] using neighborsOf_length hs he

/-- Witness for C8 at `size = 3`, `e = 4` (the interior cell). -/
theorem neighborsOf_spec_check :
    (2 ≤ 3 ∧ 4 < 3 * 3) ∧
    (neighborsOf 4 3).Nodup ∧ (neighborsOf 4 3).length = 4 :=
  ⟨by decide, (neighborsOf_spec 3 4 (by decide) (by decide)).2.1,
   ((neighborsOf_spec 3 4 (by decide) (by decide)).2.2.2).trans (by decide)⟩

/-- C2: every board produced by `shuffleSolvable` (any size ≥ 2, any
steps ≥ 1, any sequence of random draws in `[0,1)`) is a permutation of
`{0..size²-1}` and is reachable from the solved board by a finite
sequence of legal moves. -/
theorem shuffleSolvable_reachable (size steps : Nat) (rand : Nat → ℚ)
    (hs : 2 ≤ size) (hsteps : 1 ≤ steps) (hr : ValidRand rand) :
    (shuffleSolvable size steps rand).Perm (List.range (size * size)) ∧
    ReachableBoard size (shuffleSolvable size steps rand) :=
  ⟨(shuffleSolvable_inv size steps hs rand hr).1,
   (shuffleSolvable_inv size steps hs rand hr).2.1⟩

/-- Witness for C2 at `size = 2`, `steps = 1`, constant draw `0`. -/
theorem shuffleSolvable_reachable_check :
    (2 ≤ 2 ∧ 1 ≤ 1 ∧ ValidRand (fun _ => 0)) ∧
    ((shuffleSolvable 2 1 (fun _ => 0)).Perm (List.range (2 * 2)) ∧
      ReachableBoard 2 (shuffleSolvable 2 1 (fun _ => 0))) :=
  ⟨⟨by decide, by decide, fun i => ⟨le_refl 0, by norm_num⟩⟩,
   shuffleSolvable_reachable 2 1 (fun _ => 0) (by decide) (by decide)
     (fun i => ⟨le_refl 0, by norm_num⟩)⟩

/-- C3: `isSolved` is false of every board `shuffleSolvable` returns (any
size ≥ 2, steps ≥ 1, random draws in `[0,1)`): if the walk ends on the
solved board, the extra legal swap leaves it unsolved. -/
theorem shuffleSolvable_unsolved (size steps : Nat) (rand : Nat → ℚ)
    (hs : 2 ≤ size) (hsteps : 1 ≤ steps) (hr : ValidRand rand) :
    isSolved (shuffleSolvable size steps rand) = false :=
  (shuffleSolvable_inv size steps hs rand hr).2.2

/-- Witness for C3 at `size = 3`, `steps = 2`, constant draw `1/2`. -/
theorem shuffleSolvable_unsolved_check :
    (2 ≤ 3 ∧ 1 ≤ 2 ∧ ValidRand (fun _ => 1 / 2)) ∧
    isSolved (shuffleSolvable 3 2 (fun _ => 1 / 2)) = false :=
  ⟨⟨by decide, by decide, fun i => ⟨by norm_num, by norm_num⟩⟩,
   shuffleSolvable_unsolved 3 2 (fun _ => 1 / 2) (by decide) (by decide)
     (fun i => ⟨by norm_num, by norm_num⟩)⟩

/-- C10: with `Option`-valued indexing, `shuffleSolvableChk` never hits
the out-of-bounds branch: for every size ≥ 2 and random draws in
`[0,1)` it returns `some` of the board the unchecked code computes. -/
theorem shuffleSolvable_safe (size steps : Nat) (rand : Nat → ℚ)
    (hs : 2 ≤ size) (hr : ValidRand rand) :
    shuffleSolvableChk size steps rand =
      some (shuffleSolvable size steps rand) :=
  shuffleSolvableChk_eq hs hr

/-- Witness for C10 at `size = 2`, `steps = 3`, constant draw `1/3`. -/
theorem shuffleSolvable_safe_check :
    (2 ≤ 2 ∧ ValidRand (fun _ => 1 / 3)) ∧
    shuffleSolvableChk 2 3 (fun _ => 1 / 3) =
      some (shuffleSolvable 2 3 (fun _ => 1 / 3)) :=
  ⟨⟨by decide, fun i => ⟨by norm_num, by norm_num⟩⟩,
   shuffleSolvable_safe 2 3 (fun _ => 1 / 3) (by decide)
     (fun i => ⟨by norm_num, by norm_num⟩)⟩

end SlidingPuzzle

namespace SlidingPuzzle

/-- C1: in every reachable controller state, `finishedAt` is set iff the
board is solved (so the Solved state is entered only by a legal click
producing a solved board, and shuffle/resize re-enter Playing with
`finishedAt` unset and an unsolved board); the grid size stays ≥ 2. -/
theorem reachable_invariant (g : GameState) (hg : ReachableState g) :
    (g.finishedAt.isSome ↔ isSolved g.tiles = true) ∧ 2 ≤ g.size := by
  induction hg with
  | init size rand hs hr =>
    refine ⟨?_, hs⟩
    have h1 : isSolved (shuffleSolvable size 300 rand) = false :=
      (shuffleSolvable_inv size 300 hs rand hr).2.2
    simp only [initialGame]
    rw [h1]
    simp
  | click g index now hg ih =>
    obtain ⟨ih1, ih2⟩ := ih
    by_cases hf : g.finishedAt.isSome
    · have heq : onTileClick g index now = g := by
        unfold onTileClick
        rw [if_pos hf]
      rw [heq]
      exact ⟨ih1, ih2⟩
    · by_cases hadj : index ∈ neighborsOf (idxOfZero g.tiles) g.size
      · have heq : onTileClick g index now =
            { g with
                tiles := swapTiles g.tiles index (idxOfZero g.tiles)
                moves := g.moves + 1
                startedAt := some (g.startedAt.getD now)
                finishedAt :=
                  if isSolved (swapTiles g.tiles index (idxOfZero g.tiles))
                  then some now else none } := by
          unfold onTileClick
          rw [if_neg hf]
          simp [hadj]
        rw [heq]
        by_cases hsol : isSolved (swapTiles g.tiles index (idxOfZero g.tiles))
        · simp only [hsol]
          exact ⟨by simp, ih2⟩
        · simp only [hsol]
          refine ⟨?_, ih2⟩
          rw [Bool.not_eq_true] at hsol
          simp [hsol]
      · have heq : onTileClick g index now = g := by
          unfold onTileClick
          rw [if_neg hf]
          simp [hadj]
        rw [heq]
        exact ⟨ih1, ih2⟩
  | shuffle g rand hr hg ih =>
    have h1 : isSolved (shuffleSolvable g.size 300 rand) = false :=
      (shuffleSolvable_inv g.size 300 ih.2 rand hr).2.2
    simp only [onShuffle]
    refine ⟨?_, ih.2⟩
    rw [h1]
    simp
  | resize g newSize rand hs hr hg ih =>
    refine ⟨?_, hs⟩
    have h1 : isSolved (shuffleSolvable newSize 300 rand) = false :=
      (shuffleSolvable_inv newSize 300 hs rand hr).2.2
    simp only [onResize]
    rw [h1]
    simp

/-- Witness for C1 at the mount state of a 3×3 game with constant draw 0. -/
theorem reachable_invariant_check :
    ((initialGame 3 (fun _ => 0)).finishedAt.isSome ↔
      isSolved (initialGame 3 (fun _ => 0)).tiles = true) ∧
    2 ≤ (initialGame 3 (fun _ => 0)).size :=
  reachable_invariant _
    (ReachableState.init 3 (fun _ => 0) (by decide)
      (fun i => ⟨le_refl 0, by norm_num⟩))

/-- C4: a legal click in a Playing state swaps exactly the clicked cell
and the empty cell, increments `moves` by one, starts the clock if it was
not running and keeps it otherwise, sets `finishedAt` to the click time
iff the new board is solved, and leaves the size unchanged. -/
theorem click_moves (g : GameState) (index : Nat) (now : Int)
    (hfin : g.finishedAt = none)
    (hlen : g.tiles.length = g.size * g.size)
    (hmem : 0 ∈ g.tiles)
    (hadj : index ∈ neighborsOf (idxOfZero g.tiles) g.size) :
    (onTileClick g index now).tiles.length = g.tiles.length ∧
    (onTileClick g index now).tiles.getD index 0 =
      g.tiles.getD (idxOfZero g.tiles) 0 ∧
    (onTileClick g index now).tiles.getD (idxOfZero g.tiles) 0 =
      g.tiles.getD index 0 ∧
    (∀ j, j ≠ index → j ≠ idxOfZero g.tiles →
      (onTileClick g index now).tiles.getD j 0 = g.tiles.getD j 0) ∧
    (onTileClick g index now).moves = g.moves + 1 ∧
    (g.startedAt = none → (onTileClick g index now).startedAt = some now) ∧
    (∀ s, g.startedAt = some s → (onTileClick g index now).startedAt = some s) ∧
    (isSolved (onTileClick g index now).tiles = true →
      (onTileClick g index now).finishedAt = some now) ∧
    (isSolved (onTileClick g index now).tiles = false →
      (onTileClick g index now).finishedAt = none) ∧
    (onTileClick g index now).size = g.size := by
  have he_lt : idxOfZero g.tiles < g.tiles.length := idxOfZero_lt hmem
  have he_sq : idxOfZero g.tiles < g.size * g.size := by omega
  have hi_sq : index < g.size * g.size := neighborsOf_lt he_sq _ hadj
  have hi_lt : index < g.tiles.length := by omega
  have hne : index ≠ idxOfZero g.tiles := neighborsOf_ne he_sq _ hadj
  have heq : onTileClick g index now =
      { g with
          tiles := swapTiles g.tiles index (idxOfZero g.tiles)
          moves := g.moves + 1
          startedAt := some (g.startedAt.getD now)
          finishedAt :=
            if isSolved (swapTiles g.tiles index (idxOfZero g.tiles))
            then some now else none } := by
    unfold onTileClick
    rw [hfin]
    simp [hadj]
  rw [heq]
  refine ⟨swapTiles_length _ _ _, swapTiles_getD_fst hi_lt hne,
    swapTiles_getD_snd he_lt, fun j hj1 hj2 => swapTiles_getD_other hj1 hj2,
    rfl, ?_, ?_, ?_, ?_, rfl⟩
  · intro h
    rw [h]
    rfl
  · intro s h
    rw [h]
    rfl
  · intro h
    simp only at h ⊢
    rw [if_pos h]
  · intro h
    simp only at h ⊢
    rw [if_neg (by simp [h])]

/-- Witness for C4: the spec's concrete scenario, board
`[1,2,3,4,5,6,7,0,8]`, click on index 8 at time 777. -/
theorem click_moves_check :
    ((0 : Nat) ∈ [1, 2, 3, 4, 5, 6, 7, 0, 8] ∧
      8 ∈ neighborsOf (idxOfZero [1, 2, 3, 4, 5, 6, 7, 0, 8]) 3) ∧
    isSolved (onTileClick
      ⟨[1, 2, 3, 4, 5, 6, 7, 0, 8], 3, 0, none, none⟩ 8 777).tiles = true ∧
    (onTileClick ⟨[1, 2, 3, 4, 5, 6, 7, 0, 8], 3, 0, none, none⟩ 8 777).tiles =
      [1, 2, 3, 4, 5, 6, 7, 8, 0] ∧
    (onTileClick ⟨[1, 2, 3, 4, 5, 6, 7, 0, 8], 3, 0, none, none⟩
        8 777).finishedAt = some 777 ∧
    (onTileClick ⟨[1, 2, 3, 4, 5, 6, 7, 0, 8], 3, 0, none, none⟩ 8 777).moves =
      0 + 1 :=
  ⟨by decide, by decide, by decide,
   (click_moves ⟨[1, 2, 3, 4, 5, 6, 7, 0, 8], 3, 0, none, none⟩ 8 777 rfl
      (by decide) (by decide) (by decide)).2.2.2.2.2.2.2.1 (by decide),
   (click_moves ⟨[1, 2, 3, 4, 5, 6, 7, 0, 8], 3, 0, none, none⟩ 8 777 rfl
      (by decide) (by decide) (by decide)).2.2.2.2.1⟩

/-- C5: a click is a silent no-op (the state is returned unchanged, not
an error) when the game is finished or the clicked index is not adjacent
to the empty cell. -/
theorem click_noop (g : GameState) (index : Nat) (now : Int)
    (h : g.finishedAt.isSome ∨
      index ∉ neighborsOf (idxOfZero g.tiles) g.size) :
    onTileClick g index now = g := by
  unfold onTileClick
  rcases h with h | h
  · rw [if_pos h]
  · by_cases hf : g.finishedAt.isSome
    · rw [if_pos hf]
    · rw [if_neg hf]
      simp [h]

/-- Witness for C5: a click on a finished 2×2 game is ignored. -/
theorem click_noop_check :
    ((⟨[1, 2, 0, 3], 2, 5, some 10, some 20⟩ : GameState).finishedAt.isSome ∨
      1 ∉ neighborsOf (idxOfZero [1, 2, 0, 3]) 2) ∧
    onTileClick ⟨[1, 2, 0, 3], 2, 5, some 10, some 20⟩ 1 999 =
      ⟨[1, 2, 0, 3], 2, 5, some 10, some 20⟩ :=
  ⟨Or.inl (by decide),
   click_noop ⟨[1, 2, 0, 3], 2, 5, some 10, some 20⟩ 1 999
     (Or.inl (by decide))⟩

/-- C6 counterexample: the code computes the elapsed time from
`finishedAt` itself (`finishedAt ?? now`), not from `min(endTime, now)`;
at `startedAt = 1000`, `finishedAt = 5000`, `now = 2000` the code
reports 4 while the claimed formula gives 1. -/
theorem seconds_min_counterexample :
    seconds ⟨[1, 2, 3, 0], 2, 4, some 1000, some 5000⟩ 2000 ≠
      elapsedSpecFormula ⟨[1, 2, 3, 0], 2, 4, some 1000, some 5000⟩ 2000 := by
  decide

/-- C6 (amended): `seconds` returns 0 when the clock has not started;
once `finishedAt` is set the result does not depend on `now`; and
whenever `now` is at or after `finishedAt` (as is the case for clock
readings taken after the game ends) it agrees with the specification's
`floor((min(endTime, now) - startTime)/1000)` formula. -/
theorem seconds_spec (g : GameState) (now : Int) :
    (g.startedAt = none → seconds g now = 0) ∧
    (∀ t, g.finishedAt = some t → ∀ m, seconds g now = seconds g m) ∧
    ((∀ t, g.finishedAt = some t → t ≤ now) →
      seconds g now = elapsedSpecFormula g now) := by
  refine ⟨fun h => by simp [seconds, h], ?_, ?_⟩
  · intro t ht m
    cases hs : g.startedAt with
    | none => simp [seconds, hs]
    | some s => simp [seconds, hs, ht]
  · intro hle
    cases hs : g.startedAt with
    | none => simp [seconds, elapsedSpecFormula, hs]
    | some s =>
      cases hf : g.finishedAt with
      | none => simp [seconds, elapsedSpecFormula, hs, hf]
      | some t =>
        have h2 := hle t hf
        simp [seconds, elapsedSpecFormula, hs, hf, min_eq_left h2]

/-- Witness for C6's amended claim: with the game finished at 1500 and
the clock read at 2000, `seconds` agrees with the spec formula. -/
theorem seconds_spec_check :
    seconds ⟨[1, 2, 3, 0], 2, 4, some 1000, some 1500⟩ 2000 =
      elapsedSpecFormula ⟨[1, 2, 3, 0], 2, 4, some 1000, some 1500⟩ 2000 :=
  (seconds_spec ⟨[1, 2, 3, 0], 2, 4, some 1000, some 1500⟩ 2000).2.2
    (fun t ht => by simp at ht; omega)

end SlidingPuzzle
